import Mathlib

/-! ## Character classes used by the one regex in the source

The source compiles the regex
`(?m)<\?xml\s+version=["'][\d.]+["']\s+encoding=["'][a-zA-Z\d\-.]+["'].*?\?>`
and calls `is_match` (an *unanchored* search) on the leading-whitespace
trimmed file content. -/

/-- ASCII whitespace, the `\s` class restricted to ASCII (the inputs we
reason about are ASCII; `char::is_whitespace` and the regex `\s` agree with
this on ASCII). Also used to model Rust's `str::trim_start`. -/
def isWs (c : Char) : Bool :=
  c = ' ' || c = '\t' || c = '\n' || c = '\r' || c = '\x0b' || c = '\x0c'

/-- The `["']` class of the pattern. -/
def isQuote (c : Char) : Bool := c = '"' || c = '\''

/-- The `[\d.]` class of the pattern (version number characters). -/
def isVerChar (c : Char) : Bool := c.isDigit || c = '.'

/-- The `[a-zA-Z\d\-.]` class of the pattern (encoding token characters). -/
def isEncChar (c : Char) : Bool := c.isAlpha || c.isDigit || c = '-' || c = '.'

/-- Match a literal prefix; on success return the remaining input. -/
def dropLit : List Char → List Char → Option (List Char)
  | [], l => some l
  | _ :: _, [] => none
  | p :: ps, c :: cs => if c = p then dropLit ps cs else none

/-- Match one-or-more characters of a class (greedy; in the source pattern
every such run is followed by a character outside the class, so greedy
matching without backtracking coincides with the regex semantics). -/
def dropClass1 (p : Char → Bool) : List Char → Option (List Char)
  | [] => none
  | c :: cs => if p c then some (cs.dropWhile p) else none

/-- Match `["']<class>+["']`, discarding the token. The two quotes are
independent, exactly as in the pattern. -/
def dropQuoted (p : Char → Bool) (l : List Char) : Option (List Char) :=
  match l with
  | [] => none
  | q :: cs =>
    if isQuote q then
      match cs with
      | [] => none
      | c :: cs' =>
        if p c then
          match cs'.dropWhile p with
          | [] => none
          | q2 :: rest => if isQuote q2 then some rest else none
        else none
    else none

/-- Match `["']<class>+["']` and return the captured token. -/
def takeQuoted (p : Char → Bool) (l : List Char) : Option (List Char × List Char) :=
  match l with
  | [] => none
  | q :: cs =>
    if isQuote q then
      match cs with
      | [] => none
      | c :: cs' =>
        if p c then
          match cs'.dropWhile p with
          | [] => none
          | q2 :: rest =>
            if isQuote q2 then some (c :: cs'.takeWhile p, rest) else none
        else none
    else none

/-- The trailing `.*?\?>` of the pattern: some run of non-newline characters
followed by the literal `?>` (for `is_match` only existence matters, so lazy
vs greedy is irrelevant). -/
def tailMatch : List Char → Bool
  | [] => false
  | c :: cs =>
    if c = '?' && cs.head? = some '>' then true
    else if c = '\n' then false
    else tailMatch cs

/-- Anchored match of the source's XML-declaration regex at the start of the
input, returning the captured encoding token on success.  This is a direct
transcription of the pattern
`<\?xml\s+version=["'][\d.]+["']\s+encoding=["'][a-zA-Z\d\-.]+["'].*?\?>`. -/
def declEncAt (l : List Char) : Option (List Char) :=
  (dropLit "<?xml".data l).bind fun l1 =>
  (dropClass1 isWs l1).bind fun l2 =>
  (dropLit "version=".data l2).bind fun l3 =>
  (dropQuoted isVerChar l3).bind fun l4 =>
  (dropClass1 isWs l4).bind fun l5 =>
  (dropLit "encoding=".data l5).bind fun l6 =>
  (takeQuoted isEncChar l6).bind fun tr =>
  if tailMatch tr.2 then some tr.1 else none

/-- The declaration pattern matches at this position. -/
def declMatchesAt (l : List Char) : Bool := (declEncAt l).isSome

/-- `Regex::is_match`: the pattern matches somewhere in the input
(unanchored search over all start positions). -/
def containsDecl : List Char → Bool
  | [] => false
  | c :: cs => declMatchesAt (c :: cs) || containsDecl cs

/-- String view of the unanchored declaration search. -/
def containsDeclStr (s : String) : Bool := containsDecl s.data

/-! ## Generic string operations mirroring the `std` ones the source uses -/

/-- `str::contains` for a literal pattern. -/
def containsSub (pat : List Char) : List Char → Bool
  | [] => pat.isEmpty
  | c :: cs => pat.isPrefixOf (c :: cs) || containsSub pat cs

/-- String view of `str::contains`. -/
def containsSubStr (s pat : String) : Bool := containsSub pat.data s.data

/-- `str::replace` for a nonempty literal pattern `p :: ps`: replace every
non-overlapping occurrence, scanning left to right.  The `fuel` argument
only makes the recursion structural (each step consumes at least one input
character and one unit of fuel, so fuel = input length never runs out). -/
def replaceFuel (p : Char) (ps rep : List Char) : Nat → List Char → List Char
  | _, [] => []
  | 0, l => l
  | fuel + 1, c :: cs =>
    if (p :: ps).isPrefixOf (c :: cs) then
      rep ++ replaceFuel p ps rep fuel (cs.drop ps.length)
    else c :: replaceFuel p ps rep fuel cs

/-- `str::replace` on strings.  (The source never calls it with an empty
pattern; for an empty pattern we return the string unchanged.) -/
def replaceStr (s pat rep : String) : String :=
  match pat.data with
  | [] => s
  | p :: ps => ⟨replaceFuel p ps rep.data s.data.length s.data⟩

/-- `str::trim_start` (on the ASCII inputs considered here). -/
def trimStart (s : String) : String := ⟨s.data.dropWhile isWs⟩

/-- `Path::extension` of a slash-separated path: the part of the final
component after its last `.`; `none` when the final component has no dot or
only a leading dot. -/
def pathExtension (s : String) : Option String :=
  let name := (s.data.reverse.takeWhile (fun c => c ≠ '/')).reverse
  let rev := name.reverse
  if rev.contains '.' then
    let post := rev.takeWhile (fun c => c ≠ '.')
    if rev.drop (post.length + 1) = [] then none else some ⟨post.reverse⟩
  else none

/-- The `ext == "html" || ext == "xhtml"` test both per-entry fix passes use. -/
def isFixExt (name : String) : Bool :=
  match pathExtension name with
  | some e => e = "html" || e = "xhtml"
  | none => false

/-! ## Minimal HTML scanning

`scraper`/`html5ever` is an external dependency, not part of this
repository's sources.  The spec describes what the converter uses it for:
find the first element with a given tag name, read its attributes or its
inner text.  The scanners below model exactly that. -/

/-- Modelled from the spec: find the first occurrence of an opening tag
`<tag` (followed by whitespace, `>` or `/`) and return the input just after
the tag name. -/
def findTagFrom (tag : List Char) : List Char → Option (List Char)
  | [] => none
  | c :: cs =>
    if c = '<' && tag.isPrefixOf cs &&
        (match cs.drop tag.length with
         | [] => true
         | d :: _ => isWs d || d = '>' || d = '/')
    then some (cs.drop tag.length)
    else findTagFrom tag cs

/-- Modelled from the spec: read a double- or single-quoted attribute value
out of an attribute region (the text between the tag name and `>`). -/
def getAttrVal (attr : List Char) : List Char → Option (List Char)
  | [] => none
  | c :: cs =>
    if isWs c && (attr ++ ['=']).isPrefixOf cs then
      match cs.drop (attr.length + 1) with
      | [] => none
      | q :: rest =>
        if q = '"' || q = '\'' then some (rest.takeWhile (fun d => d ≠ q))
        else getAttrVal attr cs
    else getAttrVal attr cs

/-- Modelled from the spec: attribute region of the first `tag` element. -/
def firstTagRegion (tag : String) (s : String) : Option (List Char) :=
  (findTagFrom tag.data s.data).map (List.takeWhile (fun c => c ≠ '>'))

/-- Modelled from the spec: value of `attr` on the first `tag` element
(`ElementRef::value().attr(..)` on the first selector hit). -/
def tagAttr (tag attr : String) (s : String) : Option String :=
  ((firstTagRegion tag s).bind (getAttrVal attr.data)).map fun l => ⟨l⟩

/-- Take characters up to (not including) the first occurrence of `pat`. -/
def takeUntilSub (pat : List Char) : List Char → List Char
  | [] => []
  | c :: cs => if pat.isPrefixOf (c :: cs) then [] else c :: takeUntilSub pat cs

/-- Modelled from the spec: `inner_html()` of the first `tag` element — the
text between the end of its opening tag and its closing tag. -/
def firstTagInner (tag : String) (s : String) : Option String :=
  match findTagFrom tag.data s.data with
  | none => none
  | some suffixPart =>
    let afterOpen := (suffixPart.dropWhile (fun c => c ≠ '>')).drop 1
    some ⟨takeUntilSub ("</" ++ tag).data afterOpen⟩

/-! ## UTF-8 decoding

`Read::read_to_string` validates the bytes as UTF-8; on invalid input it
returns an error and leaves the (empty) buffer unchanged.  The decoder below
is the standard UTF-8 acceptor (rejecting overlong forms, surrogates and
values above `0x10FFFF`, as Rust does). -/

def utf8DecodeFuel : Nat → List Nat → Option (List Char)
  | _, [] => some []
  | 0, _ => none
  | fuel + 1, b :: bs =>
    if b < 0x80 then
      (utf8DecodeFuel fuel bs).map fun cs => Char.ofNat b :: cs
    else if b < 0xC2 then none
    else if b < 0xE0 then
      match bs with
      | b1 :: bs' =>
        if 0x80 ≤ b1 && b1 < 0xC0 then
          (utf8DecodeFuel fuel bs').map fun cs =>
            Char.ofNat ((b - 0xC0) * 64 + (b1 - 0x80)) :: cs
        else none
      | [] => none
    else if b < 0xF0 then
      match bs with
      | b1 :: b2 :: bs' =>
        if (0x80 ≤ b1 && b1 < 0xC0) && (0x80 ≤ b2 && b2 < 0xC0) &&
           !(b = 0xE0 && b1 < 0xA0) && !(b = 0xED && 0xA0 ≤ b1) then
          (utf8DecodeFuel fuel bs').map fun cs =>
            Char.ofNat (((b - 0xE0) * 64 + (b1 - 0x80)) * 64 + (b2 - 0x80)) :: cs
        else none
      | _ => none
    else if b < 0xF5 then
      match bs with
      | b1 :: b2 :: b3 :: bs' =>
        if (0x80 ≤ b1 && b1 < 0xC0) && (0x80 ≤ b2 && b2 < 0xC0) &&
           (0x80 ≤ b3 && b3 < 0xC0) &&
           !(b = 0xF0 && b1 < 0x90) && !(b = 0xF4 && 0x90 ≤ b1) then
          (utf8DecodeFuel fuel bs').map fun cs =>
            Char.ofNat ((((b - 0xF0) * 64 + (b1 - 0x80)) * 64 + (b2 - 0x80)) * 64
              + (b3 - 0x80)) :: cs
        else none
      | _ => none
    else none

/-- Validating UTF-8 decoder (fuel = input length is an upper bound on the
number of decoded characters, so the fuel never runs out). -/
def utf8Decode (l : List Nat) : Option (List Char) := utf8DecodeFuel l.length l

/-! ## Data model (`FileData`, `BinaryFileData`, `EpubConverter`) -/

/-- A textual archive entry (`struct FileData`). Paths are strings. -/
structure FileData where
  file_name : String
  file_data : String
  deriving DecidableEq, Repr

/-- A binary archive entry (`struct BinaryFileData`), bytes as naturals. -/
structure BinaryFileData where
  file_name : String
  file_data : List Nat
  deriving DecidableEq, Repr

/-- The converter state (`struct EpubConverter`).  The `HashMap<PathBuf,
String>` overlay is an association list where the most recent insertion is
consed in front and shadows older bindings. -/
structure EpubConverter where
  files : List FileData
  binary_files : List BinaryFileData
  altered_files : List (String × String)
  fixed_problems : List String
  deriving DecidableEq, Repr

/-- Lookup in the overlay: first (most recent) binding wins, matching
`HashMap::get` after replacing inserts. -/
def lookupA (m : List (String × String)) (k : String) : Option String :=
  match m with
  | [] => none
  | kv :: m' => if kv.1 = k then some kv.2 else lookupA m' k

/-! ## Archive Reader (`read_epub`, lines 61–103)

An input archive is a list of raw entries in archive order.  An entry is
textual when its name ends with one of the fixed suffixes; otherwise it is
binary unless its name ends in `/` (a directory, skipped).  Textual bytes
are decoded as UTF-8, a failure yielding the empty string (the source
discards the `read_to_string` error, leaving the empty buffer).  The
source's single loop pushes each entry into exactly one of the two lists in
archive order, which is expressed here by the two order-preserving
projections.  (Path sanitization by `enclosed_name` is not modelled; entry
names are taken as given.) -/

structure RawEntry where
  name : String
  bytes : List Nat
  deriving DecidableEq, Repr

def non_binary_suffixes : List String :=
  ["mimetype", "html", "xhtml", "htm", "xml", "svg", "css", "opf", "ncx"]

/-- `file.name().ends_with(x)` for some fixed suffix `x`. -/
def textualName (s : String) : Bool :=
  non_binary_suffixes.any fun t => t.data.isSuffixOf s.data

/-- The entry's resolved name denotes a directory (trailing `/`). -/
def isDirName (s : String) : Bool := ['/'].isSuffixOf s.data

/-- Decoded content of a textual entry; decode failure degrades to `""`. -/
def decodeOrEmpty (bs : List Nat) : String :=
  match utf8Decode bs with
  | some cs => ⟨cs⟩
  | none => ""

/-- Textual entries collected by `read_epub`, in archive order. -/
def readFiles (entries : List RawEntry) : List FileData :=
  entries.filterMap fun e =>
    if textualName e.name then some ⟨e.name, decodeOrEmpty e.bytes⟩ else none

/-- Binary entries collected by `read_epub`, in archive order. -/
def readBinaries (entries : List RawEntry) : List BinaryFileData :=
  entries.filterMap fun e =>
    if ¬ textualName e.name ∧ ¬ isDirName e.name then some ⟨e.name, e.bytes⟩
    else none

/-- `EpubConverter::new()` followed by `read_epub`. -/
def initState (files : List FileData) (bins : List BinaryFileData) : EpubConverter :=
  ⟨files, bins, [], []⟩

/-! ## Encoding Normalizer (`fix_encoding`, lines 105–133) -/

/-- The canonical declaration the source prepends. -/
def xmlDecl : String := "<?xml version=\"1.0\" encoding=\"utf-8\"?>"

/-- The value `fix_encoding` inserts for an `html`/`xhtml` entry: the
trimmed content if the declaration regex matches somewhere in it, else the
canonical declaration, a newline and the trimmed content. -/
def normEnc (s : String) : String :=
  let t := trimStart s
  if containsDeclStr t then t else xmlDecl ++ "\n" ++ t

/-- Diagnostic message of the Encoding Normalizer. -/
def encMsg (name : String) : String :=
  "Prefixed correct encoding to html for " ++ name

/-- One iteration of the `fix_encoding` loop: for an `html`/`xhtml` entry,
insert `normEnc` of its content into the overlay, pushing the diagnostic
exactly when the regex did not match. -/
def encStep (acc : EpubConverter) (f : FileData) : EpubConverter :=
  if isFixExt f.file_name then
    { acc with
      altered_files := (f.file_name, normEnc f.file_data) :: acc.altered_files,
      fixed_problems := acc.fixed_problems ++
        (if containsDeclStr (trimStart f.file_data) then [] else [encMsg f.file_name]) }
  else acc

/-- `fix_encoding`: iterate over all textual entries. -/
def fix_encoding (st : EpubConverter) : EpubConverter :=
  st.files.foldl encStep st

/-! ## Body-Anchor Link Repairer (`fix_body_id_link`, lines 135–171) -/

/-- Modelled from the spec: `scraper`'s HTML parse of the (trimmed) document
followed by selecting the first `body` element and reading its `id`
attribute. -/
def findBodyId (s : String) : Option String :=
  match findTagFrom "body".data s.data with
  | none => none
  | some suffixPart =>
    (getAttrVal "id".data (suffixPart.takeWhile (fun c => c ≠ '>'))).map fun l => ⟨l⟩

/-- The synthetic link-target token `"<path> + # + <id>"`. -/
def tokenOf (name id : String) : String := name ++ " + # + " ++ id

/-- Phase A: collect `(token, path)` pairs over `html`/`xhtml` entries. -/
def collectPairs (files : List FileData) : List (String × String) :=
  files.filterMap fun f =>
    if isFixExt f.file_name then
      match findBodyId (trimStart f.file_data) with
      | some id => some (tokenOf f.file_name id, f.file_name)
      | none => none
    else none

/-- Diagnostic message of the Body-Anchor Link Repairer. -/
def bodyMsg (src target name : String) : String :=
  "Replaced link target with " ++ src ++ " in " ++ target ++ " in file " ++ name

/-- Phase B inner loop for one entry: for each collected pair whose token
occurs in the entry's ORIGINAL content, insert the original content with
that token replaced (shadowing any earlier insert for the same path) and
push a diagnostic. -/
def bodyStep (pairs : List (String × String)) (acc : EpubConverter) (f : FileData) :
    EpubConverter :=
  pairs.foldl
    (fun a p =>
      if containsSubStr f.file_data p.1 then
        { a with
          altered_files := (f.file_name, replaceStr f.file_data p.1 p.2) :: a.altered_files,
          fixed_problems := a.fixed_problems ++ [bodyMsg p.1 p.2 f.file_name] }
      else a)
    acc

/-- `fix_body_id_link`: Phase A then Phase B over all textual entries. -/
def fix_body_id_link (st : EpubConverter) : EpubConverter :=
  st.files.foldl (bodyStep (collectPairs st.files)) st

/-! ## Language Tag Repairer (`fix_book_language`, lines 173–242) -/

def preferred_language : String := "en"

def supported_languages : List String := ["en"]

/-- `get_file_from_files`: find a textual entry by exact path. -/
def get_file_from_files (files : List FileData) (name : String) : Option FileData :=
  files.find? fun f => f.file_name = name

/-- The OPF path: the `full-path` attribute of the FIRST `rootfile` element
of `META-INF/container.xml`, provided that same element's `media-type` is
the OEBPS package type (the source inspects only the first selector hit). -/
def opfPathOf (files : List FileData) : Option String :=
  match get_file_from_files files "META-INF/container.xml" with
  | none => none
  | some c =>
    if tagAttr "rootfile" "media-type" c.file_data = some "application/oebps-package+xml"
    then tagAttr "rootfile" "full-path" c.file_data
    else none

/-- Inner text of the first `dclanguage` element of the OPF content after
the textual `dc:language` → `dclanguage` placeholder rewrite. -/
def langOf (opfData : String) : Option String :=
  firstTagInner "dclanguage" (replaceStr opfData "dc:language" "dclanguage")

/-- Inner HTML of the first `metadata` element of the placeholder-rewritten
OPF content (the source's `metadata_tag.inner_html()`, modelled as the
literal source text between the tags). -/
def metaInnerOf (opfData : String) : Option String :=
  firstTagInner "metadata" (replaceStr opfData "dc:language" "dclanguage")

/-- Diagnostic message for an unsupported language. -/
def langMsg (original : String) : String :=
  "Fixed language to be supported language from " ++ original

/-- `fix_book_language`.  `none` models the `expect`/`unwrap` panics: missing
`container.xml`, failed rootfile/attribute lookup, missing OPF entry, or
missing `metadata` element (the `expect` on `metadata` runs before the
language branch).  Otherwise: an unsupported language is fixed by a literal
substring replacement on the ORIGINAL OPF text; a missing language element
is fixed by appending a `dc:language` line to the metadata inner HTML. -/
def fix_book_language (st : EpubConverter) : Option EpubConverter :=
  match opfPathOf st.files with
  | none => none
  | some p =>
    match get_file_from_files st.files p with
    | none => none
    | some opf =>
      match metaInnerOf opf.file_data with
      | none => none
      | some metadata_html =>
        match langOf opf.file_data with
        | some language =>
          if supported_languages.contains language then some st
          else
            some { st with
              altered_files :=
                (opf.file_name,
                  replaceStr opf.file_data
                    ("<dc:language>" ++ language ++ "</dc:language>")
                    ("<dc:language>" ++ preferred_language ++ "</dc:language>"))
                :: st.altered_files,
              fixed_problems := st.fixed_problems ++ [langMsg language] }
        | none =>
          some { st with
            altered_files :=
              (opf.file_name,
                replaceStr opf.file_data metadata_html
                  (metadata_html ++ "\n<dc:language>" ++ preferred_language
                    ++ "</dc:language>"))
              :: st.altered_files,
            fixed_problems := st.fixed_problems ++ ["Added missing language tag"] }

/-! ## Archive Writer (`write_epub`, lines 244–270) -/

/-- An entry of the output archive. -/
inductive OutEntry where
  | text (name : String) (content : String)
  | bin (name : String) (content : List Nat)
  deriving DecidableEq, Repr

def outName : OutEntry → String
  | .text n _ => n
  | .bin n _ => n

/-- `write_epub`: emit every textual entry in Reader order (overlay content
if present for its path, else the original), then every binary entry in
Reader order, verbatim. -/
def write_epub (st : EpubConverter) : List OutEntry :=
  (st.files.map fun f =>
    OutEntry.text f.file_name ((lookupA st.altered_files f.file_name).getD f.file_data))
  ++ (st.binary_files.map fun b => OutEntry.bin b.file_name b.file_data)

/-! ## The pipeline (`convert_epub`, lines 32–43) -/

/-- The three fix passes in order, on an already-read archive. -/
def runPasses (files : List FileData) (bins : List BinaryFileData) :
    Option EpubConverter :=
  fix_book_language (fix_body_id_link (fix_encoding (initState files bins)))

/-- `convert_epub`: read, fix, write. -/
def convert_epub (entries : List RawEntry) : Option (List OutEntry) :=
  (runPasses (readFiles entries) (readBinaries entries)).map write_epub

/-- Content of the first textual output entry with the given path. -/
def outTextContent (out : List OutEntry) (k : String) : Option String :=
  (out.filterMap fun e =>
    match e with
    | .text n c => if n = k then some c else none
    | .bin _ _ => none).head?

/-- Name and bytes of the binary output entries, in order. -/
def outBin : OutEntry → Option (String × List Nat)
  | .text _ _ => none
  | .bin n c => some (n, c)

/-! ## Spec-side definitions

These follow the SPEC's words (not the code) and exist only to state
refinement claims against the code-derived definitions above. -/

/-- Spec wording (claims C3/C4): the content BEGINS with a well-formed XML
declaration matching the declared pattern. -/
def specBeginsWithDecl (s : String) : Bool := declMatchesAt s.data

/-- Spec wording (claim C4): the content begins with a valid XML declaration
specifying `encoding="utf-8"` (encoding token case-insensitive). -/
def specStartsWithUtf8Decl (s : String) : Bool :=
  match declEncAt s.data with
  | some tok => tok.map Char.toLower = "utf-8".data
  | none => false

/-- Attribute regions of ALL `tag` elements, in document order. -/
def allTagRegions (tag : List Char) : List Char → List (List Char)
  | [] => []
  | c :: cs =>
    if c = '<' && tag.isPrefixOf cs &&
        (match cs.drop tag.length with
         | [] => true
         | d :: _ => isWs d || d = '>' || d = '/')
    then ((cs.drop tag.length).takeWhile fun d => d ≠ '>') :: allTagRegions tag cs
    else allTagRegions tag cs

/-- Spec wording (claim C5): the OPF path comes from the `full-path`
attribute of the FIRST rootfile element WHOSE `media-type` attribute equals
`application/oebps-package+xml` (any earlier non-matching rootfile elements
are passed over). -/
def specOpfPathOf (files : List FileData) : Option String :=
  match get_file_from_files files "META-INF/container.xml" with
  | none => none
  | some c =>
    match (allTagRegions "rootfile".data c.file_data.data).filter
        (fun r => getAttrVal "media-type".data r
          = some "application/oebps-package+xml".data) with
    | [] => none
    | r :: _ => (getAttrVal "full-path".data r).map fun l => ⟨l⟩

/-- ASCII text as bytes, used to build concrete input archives. -/
def asciiBytes (s : String) : List Nat := s.data.map Char.toNat

/-! ## Characterization of the Encoding Normalizer -/

/-- Overlay insertions of one `fix_encoding` iteration. -/
def encIns (f : FileData) : List (String × String) :=
  if isFixExt f.file_name then [(f.file_name, normEnc f.file_data)] else []

/-- Diagnostics of one `fix_encoding` iteration. -/
def encProbs (f : FileData) : List String :=
  if isFixExt f.file_name then
    (if containsDeclStr (trimStart f.file_data) then [] else [encMsg f.file_name])
  else []

/-- Diagnostics of the whole Encoding Normalizer pass, in order. -/
def encDiags (l : List FileData) : List String :=
  l.filterMap fun f =>
    if isFixExt f.file_name ∧ containsDeclStr (trimStart f.file_data) = false then
      some (encMsg f.file_name)
    else none

/-! ## Characterization of the Body-Anchor Link Repairer -/

/-- Overlay insertions of one Phase-B entry iteration (most recent first). -/
def bodyIns (pairs : List (String × String)) (f : FileData) :
    List (String × String) :=
  pairs.reverse.filterMap fun p =>
    if containsSubStr f.file_data p.1 then
      some (f.file_name, replaceStr f.file_data p.1 p.2)
    else none

/-- Diagnostics of one Phase-B entry iteration, in pair order. -/
def bodyDiags (pairs : List (String × String)) (f : FileData) : List String :=
  pairs.filterMap fun p =>
    if containsSubStr f.file_data p.1 then some (bodyMsg p.1 p.2 f.file_name)
    else none

/-- Reader output for the second pipeline run: the written textual entries
(whose UTF-8 bytes decode back to the same strings) and the written binary
entries.  Classification by name is unchanged between runs because the
writer preserves entry names. -/
def textFilesOf (out : List OutEntry) : List FileData :=
  out.filterMap fun e =>
    match e with
    | .text n c => some ⟨n, c⟩
    | .bin _ _ => none

def binFilesOf (out : List OutEntry) : List BinaryFileData :=
  out.filterMap fun e =>
    match e with
    | .bin n c => some ⟨n, c⟩
    | .text _ _ => none

/-- The final content of a textual entry: overlay if present, else original. -/
def overlayContent (st : EpubConverter) (f : FileData) : FileData :=
  ⟨f.file_name, (lookupA st.altered_files f.file_name).getD f.file_data⟩

/-! ## Shared concrete inputs for witnesses and counterexamples -/

def srcContainer : String :=
  "<rootfile media-type=\"application/oebps-package+xml\" full-path=\"book.opf\"/>"

def srcOpfEn : String := "<metadata><dc:language>en</dc:language></metadata>"

def srcOpfFr : String := "<metadata><dc:language>fr</dc:language></metadata>"

def sampleEntries : List RawEntry :=
  [⟨"META-INF/container.xml", asciiBytes srcContainer⟩,
   ⟨"book.opf", asciiBytes srcOpfEn⟩,
   ⟨"img.png", [137, 80, 78, 71]⟩,
   ⟨"a.html", asciiBytes "<p>x</p>"⟩]

def sampleOut : List OutEntry :=
  [.text "META-INF/container.xml" srcContainer,
   .text "book.opf" srcOpfEn,
   .text "a.html" ("<?xml version=\"1.0\" encoding=\"utf-8\"?>" ++ "\n" ++ "<p>x</p>"),
   .bin "img.png" [137, 80, 78, 71]]

def badEntry : RawEntry := ⟨"bad.xml", [255]⟩

def afterEntries : List RawEntry := [⟨"b.css", asciiBytes "x"⟩]

/-! ## Claim C2 — Phase B substitution semantics -/

def c2files : List FileData :=
  [⟨"a.xhtml", "<html><body id=\"p\">A</body></html>"⟩,
   ⟨"b.xhtml", "<html><body id=\"q\">B</body></html>"⟩,
   ⟨"c.xml", "see a.xhtml + # + p and b.xhtml + # + q end"⟩]

def c2st : EpubConverter := initState c2files []

def c2wfiles : List FileData :=
  [⟨"a.xhtml", "<html><body id=\"p\">A</body></html>"⟩,
   ⟨"c.xml", "see a.xhtml + # + p here"⟩]

/-! ## Claim C3 — Encoding Normalizer per-entry behaviour -/

def c3file : FileData :=
  ⟨"a.html", "<html><?xml version=\"1.0\" encoding=\"utf-8\"?></html>"⟩

def c3st : EpubConverter := initState [c3file] []

def c3wfile : FileData := ⟨"ch.xhtml", "  <html><body>Hi</body></html>"⟩

/-! ## Claim C5 — locating the OPF and the fatal conditions -/

def c5container : String :=
  "<rootfile media-type=\"foo\" full-path=\"a.opf\"/><rootfile media-type=\"application/oebps-package+xml\" full-path=\"b.opf\"/>"

def c5files : List FileData :=
  [⟨"META-INF/container.xml", c5container⟩, ⟨"b.opf", srcOpfEn⟩]

def c5wfiles : List FileData :=
  [⟨"META-INF/container.xml", srcContainer⟩, ⟨"book.opf", srcOpfEn⟩]

def c6opf : FileData := ⟨"book.opf", srcOpfFr⟩

def c6st : EpubConverter :=
  initState [⟨"META-INF/container.xml", srcContainer⟩, c6opf] []

def c10opf : FileData :=
  ⟨"book.opf", "<metadata><dc:language xml:lang=\"fr\">fr</dc:language></metadata>"⟩

def c10st : EpubConverter :=
  initState [⟨"META-INF/container.xml", srcContainer⟩, c10opf] []

/-! ## Claim C4 — encoding invariant of the output -/

def c4content : String := "<p>x</p><?xml version=\"1.0\" encoding=\"utf-8\"?>"

def c4entries : List RawEntry :=
  [⟨"META-INF/container.xml", asciiBytes srcContainer⟩,
   ⟨"book.opf", asciiBytes srcOpfEn⟩,
   ⟨"a.html", asciiBytes c4content⟩]

def c4wentries : List RawEntry :=
  [⟨"META-INF/container.xml", asciiBytes srcContainer⟩,
   ⟨"book.opf", asciiBytes srcOpfEn⟩,
   ⟨"b.xhtml", asciiBytes "<p>hi</p>"⟩]

def c4wout : List OutEntry :=
  [.text "META-INF/container.xml" srcContainer,
   .text "book.opf" srcOpfEn,
   .text "b.xhtml" (xmlDecl ++ "\n" ++ "<p>hi</p>")]

def c8xFiles : List FileData :=
  [⟨"META-INF/container.xml", srcContainer⟩,
   ⟨"book.opf", "<metadata><dc:language id=\"l\">fr</dc:language></metadata>"⟩]

def c8wFiles : List FileData :=
  [⟨"META-INF/container.xml", srcContainer⟩,
   ⟨"book.opf", srcOpfFr⟩,
   ⟨"a.xhtml", "<p>x</p>"⟩]

def c8wSt3 : EpubConverter :=
  ⟨c8wFiles, [],
   [("book.opf", srcOpfEn), ("a.xhtml", xmlDecl ++ "\n" ++ "<p>x</p>")],
   ["Prefixed correct encoding to html for a.xhtml",
    "Fixed language to be supported language from fr"]⟩

/-! ## Basic lemmas about the overlay -/

theorem lookupA_append (xs ys : List (String × String)) (k : String) :
    lookupA (xs ++ ys) k
      = match lookupA xs k with
        | some v => some v
        | none => lookupA ys k := by
  induction xs with
  | nil => simp [lookupA]
  | cons kv xs ih =>
    by_cases h : kv.1 = k <;> simp [lookupA, h, ih]

theorem lookupA_eq_none (xs : List (String × String)) (k : String)
    (h : ∀ kv ∈ xs, kv.1 ≠ k) : lookupA xs k = none := by
  induction xs with
  | nil => rfl
  | cons kv xs ih =>
    have h1 : kv.1 ≠ k := h kv (by simp)
    simp only [lookupA, if_neg h1]
    exact ih fun kv' hm => h kv' (by simp [hm])

theorem lookupA_all_key (xs : List (String × String)) (k : String)
    (h : ∀ kv ∈ xs, kv.1 = k) : lookupA xs k = xs.head?.map Prod.snd := by
  cases xs with
  | nil => rfl
  | cons kv xs =>
    have h1 : kv.1 = k := h kv (by simp)
    simp [lookupA, h1]

/-! ## Generic lemmas about the pass loops -/

theorem foldl_preserves {α β : Type} (step : EpubConverter → α → EpubConverter)
    (g : EpubConverter → β) (hstep : ∀ st a, g (step st a) = g st) :
    ∀ (l : List α) (st : EpubConverter), g (List.foldl step st l) = g st := by
  intro l
  induction l with
  | nil => intro st; rfl
  | cons a l ih => intro st; rw [List.foldl_cons, ih, hstep]

theorem foldl_problems_append {α : Type} (step : EpubConverter → α → EpubConverter)
    (probs : α → List String)
    (hstep : ∀ st a, (step st a).fixed_problems = st.fixed_problems ++ probs a) :
    ∀ (l : List α) (st : EpubConverter),
      (List.foldl step st l).fixed_problems
        = st.fixed_problems ++ (l.map probs).flatten := by
  intro l
  induction l with
  | nil => intro st; simp
  | cons a l ih => intro st; rw [List.foldl_cons, ih, hstep]; simp

theorem foldl_altered_append {α : Type} (step : EpubConverter → α → EpubConverter)
    (ins : α → List (String × String))
    (hstep : ∀ st a, (step st a).altered_files = ins a ++ st.altered_files) :
    ∀ (l : List α) (st : EpubConverter),
      (List.foldl step st l).altered_files
        = (l.reverse.map ins).flatten ++ st.altered_files := by
  intro l
  induction l with
  | nil => intro st; simp
  | cons a l ih =>
    intro st
    rw [List.foldl_cons, ih, hstep]
    simp [List.append_assoc]

theorem filterMap_ite {α β : Type} (c : α → Bool) (h : α → β) (l : List α) :
    (l.filterMap fun a => if c a then some (h a) else none)
      = (l.filter c).map h := by
  induction l with
  | nil => rfl
  | cons a l ih =>
    by_cases hc : c a <;> simp [List.filterMap_cons, List.filter_cons, hc, ih]

theorem join_map_ite {α β : Type} (c : α → Bool) (h : α → β) (l : List α) :
    (l.map fun a => if c a then [h a] else []).flatten
      = (l.filter c).map h := by
  induction l with
  | nil => rfl
  | cons a l ih =>
    by_cases hc : c a <;> simp [List.filter_cons, hc, ih]

/-- Lookup after a pass loop, at the path of a list member, when file names
are unique: the member's own insertions are consulted first (most recent
first), then the pre-pass overlay. -/
theorem lookupA_foldl (step : EpubConverter → FileData → EpubConverter)
    (ins : FileData → List (String × String))
    (hstep : ∀ st f, (step st f).altered_files = ins f ++ st.altered_files)
    (hkeys : ∀ f kv, kv ∈ ins f → kv.1 = f.file_name)
    (l : List FileData) (st : EpubConverter) (f : FileData)
    (hnd : (l.map FileData.file_name).Nodup) (hf : f ∈ l) :
    lookupA (List.foldl step st l).altered_files f.file_name
      = match lookupA (ins f) f.file_name with
        | some v => some v
        | none => lookupA st.altered_files f.file_name := by
  obtain ⟨s, t, rfl⟩ := List.append_of_mem hf
  rw [foldl_altered_append step ins hstep]
  have hnd' := hnd
  rw [List.map_append, List.map_cons, List.nodup_append] at hnd'
  obtain ⟨h1, h2, hdisj⟩ := hnd'
  have hfs : f.file_name ∉ s.map FileData.file_name := fun hmem =>
    hdisj hmem (by simp)
  have hft : f.file_name ∉ t.map FileData.file_name := (List.nodup_cons.1 h2).1
  have hnames : ∀ g ∈ s ++ t, g.file_name ≠ f.file_name := by
    intro g hg he
    rcases List.mem_append.1 hg with hgs | hgt
    · exact hfs (he ▸ List.mem_map_of_mem FileData.file_name hgs)
    · exact hft (he ▸ List.mem_map_of_mem FileData.file_name hgt)
  have hnone : ∀ (u : List FileData), (∀ g ∈ u, g.file_name ≠ f.file_name) →
      lookupA ((u.map ins).flatten) f.file_name = none := by
    intro u hu
    apply lookupA_eq_none
    intro kv hkv
    rw [List.mem_flatten] at hkv
    obtain ⟨part, hpart, hkvp⟩ := hkv
    rw [List.mem_map] at hpart
    obtain ⟨g, hg, rfl⟩ := hpart
    rw [hkeys g kv hkvp]
    exact hu g hg
  have hrev : (s ++ f :: t).reverse = t.reverse ++ f :: s.reverse := by simp
  rw [hrev, List.map_append, List.map_cons, List.flatten_append, List.flatten_cons]
  have e1 : ((t.reverse.map ins).flatten ++ (ins f ++ (s.reverse.map ins).flatten))
      ++ st.altered_files
      = (t.reverse.map ins).flatten
        ++ (ins f ++ ((s.reverse.map ins).flatten ++ st.altered_files)) := by
    simp [List.append_assoc]
  rw [e1, lookupA_append,
    hnone t.reverse
      (fun g hg => hnames g (List.mem_append.2 (Or.inr (List.mem_reverse.1 hg)))),
    lookupA_append]
  cases hl : lookupA (ins f) f.file_name with
  | some v => rfl
  | none =>
    simp only [lookupA_append,
      hnone s.reverse
        (fun g hg => hnames g (List.mem_append.2 (Or.inl (List.mem_reverse.1 hg))))]

theorem encStep_altered (st : EpubConverter) (f : FileData) :
    (encStep st f).altered_files = encIns f ++ st.altered_files := by
  by_cases h : isFixExt f.file_name <;> simp [encStep, encIns, h]

theorem encStep_problems (st : EpubConverter) (f : FileData) :
    (encStep st f).fixed_problems = st.fixed_problems ++ encProbs f := by
  by_cases h : isFixExt f.file_name <;> simp [encStep, encProbs, h]

theorem encProbs_flatten (l : List FileData) :
    (l.map encProbs).flatten = encDiags l := by
  induction l with
  | nil => rfl
  | cons f l ih =>
    rw [List.map_cons, List.flatten_cons, ih]
    by_cases h1 : isFixExt f.file_name <;>
      by_cases h2 : containsDeclStr (trimStart f.file_data) <;>
        simp [encProbs, encDiags, List.filterMap_cons, h1, h2]

theorem fix_encoding_files (st : EpubConverter) :
    (fix_encoding st).files = st.files :=
  foldl_preserves encStep EpubConverter.files
    (fun st f => by by_cases h : isFixExt f.file_name <;> simp [encStep, h]) _ _

theorem fix_encoding_binary (st : EpubConverter) :
    (fix_encoding st).binary_files = st.binary_files :=
  foldl_preserves encStep EpubConverter.binary_files
    (fun st f => by by_cases h : isFixExt f.file_name <;> simp [encStep, h]) _ _

theorem fix_encoding_problems (st : EpubConverter) :
    (fix_encoding st).fixed_problems = st.fixed_problems ++ encDiags st.files := by
  rw [fix_encoding, foldl_problems_append encStep encProbs encStep_problems,
    encProbs_flatten]

theorem fix_encoding_lookup (st : EpubConverter) (f : FileData)
    (hnd : (st.files.map FileData.file_name).Nodup) (hf : f ∈ st.files) :
    lookupA (fix_encoding st).altered_files f.file_name
      = if isFixExt f.file_name then some (normEnc f.file_data)
        else lookupA st.altered_files f.file_name := by
  rw [fix_encoding,
    lookupA_foldl encStep encIns encStep_altered
      (fun f kv hkv => by
        by_cases h : isFixExt f.file_name <;> simp [encIns, h] at hkv
        rw [hkv])
      st.files st f hnd hf]
  by_cases h : isFixExt f.file_name <;> simp [encIns, h, lookupA]

theorem bodyFlatten_ins (f : FileData) (ps : List (String × String)) :
    (ps.map fun p => if containsSubStr f.file_data p.1 then
        [(f.file_name, replaceStr f.file_data p.1 p.2)] else []).flatten
      = ps.filterMap fun p => if containsSubStr f.file_data p.1 then
          some (f.file_name, replaceStr f.file_data p.1 p.2) else none := by
  induction ps with
  | nil => rfl
  | cons p ps ih =>
    by_cases h : containsSubStr f.file_data p.1 <;>
      simp [List.filterMap_cons, h, ih]

theorem bodyFlatten_probs (f : FileData) (ps : List (String × String)) :
    (ps.map fun p => if containsSubStr f.file_data p.1 then
        [bodyMsg p.1 p.2 f.file_name] else []).flatten
      = bodyDiags ps f := by
  induction ps with
  | nil => rfl
  | cons p ps ih =>
    by_cases h : containsSubStr f.file_data p.1 <;>
      simp [bodyDiags, List.filterMap_cons, h, ih]

theorem bodyStep_altered (pairs : List (String × String)) (acc : EpubConverter)
    (f : FileData) :
    (bodyStep pairs acc f).altered_files = bodyIns pairs f ++ acc.altered_files := by
  rw [bodyStep,
    foldl_altered_append _
      (fun p => if containsSubStr f.file_data p.1 then
          [(f.file_name, replaceStr f.file_data p.1 p.2)] else [])
      (fun st p => by by_cases h : containsSubStr f.file_data p.1 <;> simp [h]),
    bodyFlatten_ins, bodyIns]

theorem bodyStep_problems (pairs : List (String × String)) (acc : EpubConverter)
    (f : FileData) :
    (bodyStep pairs acc f).fixed_problems
      = acc.fixed_problems ++ bodyDiags pairs f := by
  rw [bodyStep,
    foldl_problems_append _
      (fun p => if containsSubStr f.file_data p.1 then [bodyMsg p.1 p.2 f.file_name]
        else [])
      (fun st p => by by_cases h : containsSubStr f.file_data p.1 <;> simp [h]),
    bodyFlatten_probs]

theorem fix_body_files (st : EpubConverter) :
    (fix_body_id_link st).files = st.files :=
  foldl_preserves _ EpubConverter.files
    (fun acc f => by
      rw [bodyStep]
      exact foldl_preserves _ EpubConverter.files
        (fun a p => by by_cases h : containsSubStr f.file_data p.1 <;> simp [h]) _ _)
    _ _

theorem fix_body_binary (st : EpubConverter) :
    (fix_body_id_link st).binary_files = st.binary_files :=
  foldl_preserves _ EpubConverter.binary_files
    (fun acc f => by
      rw [bodyStep]
      exact foldl_preserves _ EpubConverter.binary_files
        (fun a p => by by_cases h : containsSubStr f.file_data p.1 <;> simp [h]) _ _)
    _ _

theorem fix_body_lookup (st : EpubConverter) (f : FileData)
    (hnd : (st.files.map FileData.file_name).Nodup) (hf : f ∈ st.files) :
    lookupA (fix_body_id_link st).altered_files f.file_name
      = match lookupA (bodyIns (collectPairs st.files) f) f.file_name with
        | some v => some v
        | none => lookupA st.altered_files f.file_name := by
  rw [fix_body_id_link,
    lookupA_foldl (bodyStep (collectPairs st.files)) (bodyIns (collectPairs st.files))
      (bodyStep_altered _)
      (fun f kv hkv => by
        rw [bodyIns, List.mem_filterMap] at hkv
        obtain ⟨p, _, hp⟩ := hkv
        by_cases h : containsSubStr f.file_data p.1 <;> simp [h] at hp
        rw [← hp])
      st.files st f hnd hf]

/-- The overlay value Phase B leaves for an entry: the ORIGINAL content with
the LAST matching token (in collection order) replaced. -/
theorem bodyIns_lookup (pairs : List (String × String)) (f : FileData) :
    lookupA (bodyIns pairs f) f.file_name
      = ((pairs.filter fun p => containsSubStr f.file_data p.1).getLast?).map
          (fun p => replaceStr f.file_data p.1 p.2) := by
  rw [lookupA_all_key _ _
    (fun kv hkv => by
      rw [bodyIns, List.mem_filterMap] at hkv
      obtain ⟨p, _, hp⟩ := hkv
      by_cases h : containsSubStr f.file_data p.1 <;> simp [h] at hp
      rw [← hp])]
  have h1 : bodyIns pairs f
      = ((pairs.filter fun p => containsSubStr f.file_data p.1).reverse).map
          (fun p => (f.file_name, replaceStr f.file_data p.1 p.2)) := by
    rw [bodyIns, ← List.filter_reverse]
    induction pairs.reverse with
    | nil => rfl
    | cons p ps ih =>
      by_cases h : containsSubStr f.file_data p.1 <;>
        simp [List.filterMap_cons, List.filter_cons, h, ih]
  rw [h1, List.head?_map, List.head?_reverse]
  cases (pairs.filter fun p => containsSubStr f.file_data p.1).getLast? <;> rfl

/-! ## Lemmas about the declaration matcher and `normEnc` -/

/-- The canonical declaration the pass prepends matches its own regex (with
encoding token `utf-8`), whatever follows it. -/
theorem declEncAt_canonical (rest : List Char) :
    declEncAt (xmlDecl.data ++ rest) = some "utf-8".data := rfl

theorem containsDecl_of_matchesAt (l : List Char) (h : declMatchesAt l = true) :
    containsDecl l = true := by
  cases l with
  | nil => exact absurd h (by decide)
  | cons c cs => simp [containsDecl, h]

theorem xmlDecl_data :
    xmlDecl.data = '<' :: "?xml version=\"1.0\" encoding=\"utf-8\"?>".data := rfl

theorem dropWhile_isWs_idem (l : List Char) :
    (l.dropWhile isWs).dropWhile isWs = l.dropWhile isWs := by
  induction l with
  | nil => rfl
  | cons c cs ih =>
    by_cases h : isWs c <;> simp [List.dropWhile_cons, h, ih]

theorem trimStart_idem (s : String) : trimStart (trimStart s) = trimStart s :=
  congrArg String.mk (dropWhile_isWs_idem s.data)

theorem data_append3 (a b c : String) :
    (a ++ b ++ c).data = a.data ++ (b.data ++ c.data) := by
  simp [String.data_append]

theorem trimStart_canonical (t : String) :
    trimStart (xmlDecl ++ "\n" ++ t) = xmlDecl ++ "\n" ++ t := by
  have h : (xmlDecl ++ "\n" ++ t).data
      = '<' :: ("?xml version=\"1.0\" encoding=\"utf-8\"?>".data ++ ('\n' :: t.data)) := by
    rw [data_append3, xmlDecl_data]
    rfl
  rw [trimStart, h, List.dropWhile_cons, if_neg (by decide)]
  exact congrArg String.mk h.symm

theorem containsDeclStr_canonical (t : String) :
    containsDeclStr (xmlDecl ++ "\n" ++ t) = true := by
  rw [containsDeclStr, data_append3]
  apply containsDecl_of_matchesAt
  rw [declMatchesAt, declEncAt_canonical]
  rfl

theorem trimStart_normEnc (s : String) : trimStart (normEnc s) = normEnc s := by
  rw [normEnc]
  by_cases h : containsDeclStr (trimStart s)
  · simp only [h, if_true]
    exact trimStart_idem s
  · simp only [h, if_false, Bool.false_eq_true]
    exact trimStart_canonical (trimStart s)

theorem containsDeclStr_normEnc (s : String) :
    containsDeclStr (trimStart (normEnc s)) = true := by
  rw [trimStart_normEnc, normEnc]
  by_cases h : containsDeclStr (trimStart s)
  · simp [h]
  · simp only [h, if_false, Bool.false_eq_true]
    exact containsDeclStr_canonical (trimStart s)

theorem normEnc_idem (s : String) : normEnc (normEnc s) = normEnc s := by
  conv_lhs => rw [normEnc]
  rw [containsDeclStr_normEnc]
  simp only [if_true]
  exact trimStart_normEnc s

/-! ## Lemmas about `str::replace` -/

theorem replaceFuel_noop (p : Char) (ps rep : List Char) (fuel : Nat) :
    ∀ (l : List Char), containsSub (p :: ps) l = false →
      replaceFuel p ps rep fuel l = l := by
  induction fuel with
  | zero => intro l h; cases l <;> rfl
  | succ n ih =>
    intro l h
    cases l with
    | nil => rfl
    | cons c cs =>
      rw [containsSub, Bool.or_eq_false_iff] at h
      show (if (p :: ps).isPrefixOf (c :: cs) then
          rep ++ replaceFuel p ps rep n (cs.drop ps.length)
        else c :: replaceFuel p ps rep n cs) = c :: cs
      rw [if_neg (by simp [h.1]), ih cs h.2]

theorem replaceStr_noop (s pat rep : String) (h : containsSubStr s pat = false) :
    replaceStr s pat rep = s := by
  rw [containsSubStr] at h
  rw [replaceStr]
  cases hp : pat.data with
  | nil => rfl
  | cons p ps =>
    rw [hp] at h
    show (⟨replaceFuel p ps rep.data s.data.length s.data⟩ : String) = s
    rw [replaceFuel_noop p ps rep.data s.data.length s.data h]

/-! ## Characterization of the Language Tag Repairer -/

theorem get_file_name (files : List FileData) (p : String) (opf : FileData)
    (h : get_file_from_files files p = some opf) : opf.file_name = p := by
  rw [get_file_from_files] at h
  have h2 := List.find?_some h
  simpa using h2

theorem fix_book_language_eq (st : EpubConverter) (p : String) (opf : FileData)
    (m : String) (hp : opfPathOf st.files = some p)
    (hf : get_file_from_files st.files p = some opf)
    (hm : metaInnerOf opf.file_data = some m) :
    fix_book_language st
      = match langOf opf.file_data with
        | some language =>
          if supported_languages.contains language then some st
          else
            some { st with
              altered_files :=
                (opf.file_name,
                  replaceStr opf.file_data
                    ("<dc:language>" ++ language ++ "</dc:language>")
                    ("<dc:language>" ++ preferred_language ++ "</dc:language>"))
                :: st.altered_files,
              fixed_problems := st.fixed_problems ++ [langMsg language] }
        | none =>
          some { st with
            altered_files :=
              (opf.file_name,
                replaceStr opf.file_data m
                  (m ++ "\n<dc:language>" ++ preferred_language ++ "</dc:language>"))
              :: st.altered_files,
            fixed_problems := st.fixed_problems ++ ["Added missing language tag"] } := by
  unfold fix_book_language
  simp only [hp, hf, hm]

theorem lang_preserved (st st' : EpubConverter) (h : fix_book_language st = some st') :
    st'.files = st.files ∧ st'.binary_files = st.binary_files ∧
      ∀ k, opfPathOf st.files ≠ some k →
        lookupA st'.altered_files k = lookupA st.altered_files k := by
  unfold fix_book_language at h
  cases hp : opfPathOf st.files with
  | none => simp only [hp] at h; exact Option.noConfusion h
  | some p =>
    simp only [hp] at h
    cases hf : get_file_from_files st.files p with
    | none => simp only [hf] at h; exact Option.noConfusion h
    | some opf =>
      simp only [hf] at h
      have hname : opf.file_name = p := get_file_name st.files p opf hf
      cases hm : metaInnerOf opf.file_data with
      | none => simp only [hm] at h; exact Option.noConfusion h
      | some m =>
        simp only [hm] at h
        have hkey : ∀ (v : String) k, some p ≠ some k →
            lookupA ((opf.file_name, v) :: st.altered_files) k
              = lookupA st.altered_files k := by
          intro v k hk
          simp only [lookupA]
          rw [if_neg (by rw [hname]; exact fun he => hk (congrArg some he))]
        cases hl : langOf opf.file_data with
        | some L =>
          simp only [hl] at h
          by_cases hs : supported_languages.contains L
          · rw [if_pos hs] at h
            injection h with h
            subst h
            exact ⟨rfl, rfl, fun k _ => rfl⟩
          · rw [if_neg hs] at h
            injection h with h
            subst h
            exact ⟨rfl, rfl, fun k hk => hkey _ k hk⟩
        | none =>
          simp only [hl] at h
          injection h with h
          subst h
          exact ⟨rfl, rfl, fun k hk => hkey _ k hk⟩

theorem fix_book_language_isSome_iff (st : EpubConverter) :
    (fix_book_language st).isSome = true ↔
      ∃ p opf m, opfPathOf st.files = some p
        ∧ get_file_from_files st.files p = some opf
        ∧ metaInnerOf opf.file_data = some m := by
  constructor
  · intro h
    unfold fix_book_language at h
    cases hp : opfPathOf st.files with
    | none => simp only [hp] at h; exact absurd h (by simp)
    | some p =>
      simp only [hp] at h
      cases hf : get_file_from_files st.files p with
      | none => simp only [hf] at h; exact absurd h (by simp)
      | some opf =>
        simp only [hf] at h
        cases hm : metaInnerOf opf.file_data with
        | none => simp only [hm] at h; exact absurd h (by simp)
        | some m => exact ⟨p, opf, m, rfl, hf, hm⟩
  · rintro ⟨p, opf, m, hp, hf, hm⟩
    rw [fix_book_language_eq st p opf m hp hf hm]
    cases langOf opf.file_data with
    | some L =>
      by_cases hs : L ∈ supported_languages
      · simp [hs]
      · simp [hs]
    | none => rfl

/-! ## Characterization of the Archive Writer -/

theorem write_names (st : EpubConverter) :
    (write_epub st).map outName
      = st.files.map FileData.file_name
        ++ st.binary_files.map BinaryFileData.file_name := by
  rw [write_epub, List.map_append, List.map_map, List.map_map]
  congr 1

theorem write_bins (st : EpubConverter) :
    (write_epub st).filterMap outBin
      = st.binary_files.map fun b => (b.file_name, b.file_data) := by
  rw [write_epub, List.filterMap_append]
  have h1 : (st.files.map fun f =>
      OutEntry.text f.file_name
        ((lookupA st.altered_files f.file_name).getD f.file_data)).filterMap outBin
      = [] := by
    induction st.files with
    | nil => rfl
    | cons f l ih => simp [List.filterMap_cons, outBin, ih]
  have h2 : (st.binary_files.map fun b =>
      OutEntry.bin b.file_name b.file_data).filterMap outBin
      = st.binary_files.map fun b => (b.file_name, b.file_data) := by
    induction st.binary_files with
    | nil => rfl
    | cons b l ih => simpa [List.filterMap_cons, outBin] using ih
  rw [h1, h2, List.nil_append]

/-! ## Pipeline-level lemmas -/

theorem runPasses_state (files : List FileData) (bins : List BinaryFileData)
    (st3 : EpubConverter) (h : runPasses files bins = some st3) :
    st3.files = files ∧ st3.binary_files = bins := by
  rw [runPasses] at h
  have h1 := lang_preserved _ _ h
  constructor
  · rw [h1.1, fix_body_files, fix_encoding_files]; rfl
  · rw [h1.2.1, fix_body_binary, fix_encoding_binary]; rfl

theorem convert_some (entries : List RawEntry) (out : List OutEntry)
    (h : convert_epub entries = some out) :
    ∃ st3, runPasses (readFiles entries) (readBinaries entries) = some st3
      ∧ out = write_epub st3 := by
  rw [convert_epub] at h
  cases hr : runPasses (readFiles entries) (readBinaries entries) with
  | none => rw [hr] at h; exact Option.noConfusion h
  | some st3 =>
    rw [hr] at h
    injection h with h
    exact ⟨st3, rfl, h.symm⟩

theorem textFilesOf_write (st : EpubConverter) :
    textFilesOf (write_epub st) = st.files.map (overlayContent st) := by
  rw [write_epub, textFilesOf, List.filterMap_append]
  have h1 : ∀ (l : List FileData), (l.map fun f =>
      OutEntry.text f.file_name
        ((lookupA st.altered_files f.file_name).getD f.file_data)).filterMap
          (fun e => match e with
            | .text n c => some (⟨n, c⟩ : FileData)
            | .bin _ _ => none)
      = l.map (overlayContent st) := by
    intro l
    induction l with
    | nil => rfl
    | cons f l ih => simp [List.filterMap_cons, ih, overlayContent]
  have h2 : (st.binary_files.map fun b =>
      OutEntry.bin b.file_name b.file_data).filterMap
        (fun e => match e with
          | .text n c => some (⟨n, c⟩ : FileData)
          | .bin _ _ => none)
      = [] := by
    induction st.binary_files with
    | nil => rfl
    | cons b l ih => simp [List.filterMap_cons, ih]
  rw [h1, h2, List.append_nil]

theorem binFilesOf_write (st : EpubConverter) :
    binFilesOf (write_epub st) = st.binary_files := by
  rw [write_epub, binFilesOf, List.filterMap_append]
  have h1 : (st.files.map fun f =>
      OutEntry.text f.file_name
        ((lookupA st.altered_files f.file_name).getD f.file_data)).filterMap
        (fun e => match e with
          | .bin n c => some (⟨n, c⟩ : BinaryFileData)
          | .text _ _ => none)
      = [] := by
    induction st.files with
    | nil => rfl
    | cons f l ih => simp [List.filterMap_cons, ih]
  have h2 : ∀ (l : List BinaryFileData), (l.map fun b =>
      OutEntry.bin b.file_name b.file_data).filterMap
        (fun e => match e with
          | .bin n c => some (⟨n, c⟩ : BinaryFileData)
          | .text _ _ => none)
      = l := by
    intro l
    induction l with
    | nil => rfl
    | cons b l ih => simp [List.filterMap_cons, ih]
  rw [h1, h2, List.nil_append]

theorem outTextContent_write (st : EpubConverter) (f : FileData)
    (hnd : (st.files.map FileData.file_name).Nodup) (hf : f ∈ st.files) :
    outTextContent (write_epub st) f.file_name
      = some ((lookupA st.altered_files f.file_name).getD f.file_data) := by
  obtain ⟨s, t, hst⟩ := List.append_of_mem hf
  have hnd' := hnd
  rw [hst, List.map_append, List.map_cons, List.nodup_append] at hnd'
  have hs : ∀ g ∈ s, g.file_name ≠ f.file_name := by
    intro g hg he
    exact hnd'.2.2 (he ▸ List.mem_map_of_mem FileData.file_name hg) (by simp)
  rw [outTextContent, write_epub, hst, List.filterMap_append]
  have hbin : (st.binary_files.map fun b =>
      OutEntry.bin b.file_name b.file_data).filterMap
        (fun e => match e with
          | .text n c => if n = f.file_name then some c else none
          | .bin _ _ => none)
      = [] := by
    induction st.binary_files with
    | nil => rfl
    | cons b l ih => simp [List.filterMap_cons, ih]
  rw [hbin, List.append_nil, List.map_append, List.map_cons, List.filterMap_append,
    List.filterMap_cons]
  have hsnil : ∀ (u : List FileData), (∀ g ∈ u, g.file_name ≠ f.file_name) →
      (u.map fun g =>
        OutEntry.text g.file_name
          ((lookupA st.altered_files g.file_name).getD g.file_data)).filterMap
        (fun e => match e with
          | .text n c => if n = f.file_name then some c else none
          | .bin _ _ => none)
      = [] := by
    intro u hu
    induction u with
    | nil => rfl
    | cons g u ih =>
      rw [List.map_cons, List.filterMap_cons]
      simp only [if_neg (hu g (by simp))]
      exact ih fun g hg => hu g (by simp [hg])
  rw [hsnil s hs]
  simp

theorem bodyIns_empty (pairs : List (String × String)) (f : FileData)
    (h : ∀ p ∈ pairs, containsSubStr f.file_data p.1 = false) :
    lookupA (bodyIns pairs f) f.file_name = none := by
  rw [bodyIns_lookup]
  have : pairs.filter (fun p => containsSubStr f.file_data p.1) = [] :=
    List.filter_eq_nil_iff.2 fun p hp => by rw [h p hp]; exact Bool.false_ne_true
  rw [this]
  rfl

/-! ## Counting the Encoding Normalizer's diagnostics -/

theorem string_mk_inj {a b : List Char} (h : (⟨a⟩ : String) = ⟨b⟩) : a = b := by
  injection h

theorem encMsg_inj {a b : String} (h : encMsg a = encMsg b) : a = b := by
  rw [encMsg, encMsg] at h
  have hd : ("Prefixed correct encoding to html for ").data ++ a.data
      = ("Prefixed correct encoding to html for ").data ++ b.data := by
    have := congrArg String.data h
    rwa [String.data_append, String.data_append] at this
  have := List.append_cancel_left hd
  cases a; cases b
  exact congrArg String.mk this

theorem encDiags_count_zero (l : List FileData) (k : String)
    (h : ∀ g ∈ l, g.file_name ≠ k) :
    (encDiags l).count (encMsg k) = 0 := by
  induction l with
  | nil => rfl
  | cons g t ih =>
    rw [encDiags, List.filterMap_cons]
    have ht := ih fun g hg => h g (by simp [hg])
    rw [encDiags] at ht
    by_cases hc : isFixExt g.file_name ∧ containsDeclStr (trimStart g.file_data) = false
    · rw [if_pos hc, List.count_cons, ht]
      have : ¬ (encMsg g.file_name = encMsg k) := fun he => h g (by simp) (encMsg_inj he)
      simp [this]
    · rw [if_neg hc, ht]

theorem encDiags_count (l : List FileData) (f : FileData)
    (hnd : (l.map FileData.file_name).Nodup) (hf : f ∈ l)
    (hext : isFixExt f.file_name = true) :
    (encDiags l).count (encMsg f.file_name)
      = if containsDeclStr (trimStart f.file_data) then 0 else 1 := by
  induction l with
  | nil => exact absurd hf (by simp)
  | cons g t ih =>
    rw [List.map_cons, List.nodup_cons] at hnd
    rcases List.mem_cons.1 hf with rfl | hft
    · have hzero : (encDiags t).count (encMsg f.file_name) = 0 :=
        encDiags_count_zero t f.file_name fun g hg he =>
          hnd.1 (he ▸ List.mem_map_of_mem FileData.file_name hg)
      rw [encDiags, List.filterMap_cons]
      by_cases hc : containsDeclStr (trimStart f.file_data)
      · rw [if_neg (by simp [hc]), if_pos hc]
        rw [encDiags] at hzero
        exact hzero
      · rw [if_pos ⟨hext, by simp [hc]⟩, if_neg hc, List.count_cons]
        rw [encDiags] at hzero
        simp [hzero]
    · have hgf : g.file_name ≠ f.file_name := fun he =>
        hnd.1 (he ▸ List.mem_map_of_mem FileData.file_name hft)
      have := ih hnd.2 hft
      rw [encDiags, List.filterMap_cons]
      by_cases hc : isFixExt g.file_name ∧ containsDeclStr (trimStart g.file_data) = false
      · rw [if_pos hc, List.count_cons]
        rw [encDiags] at this
        have hne : ¬ (encMsg g.file_name = encMsg f.file_name) := fun he =>
          hgf (encMsg_inj he)
        simp [this, hne]
      · rw [if_neg hc]
        rw [encDiags] at this
        exact this

/-! ## Claim C1 — entry-order preservation -/

/-- C1, counterexample: on an archive whose entries interleave binary and
textual files (binary `img.png` before textual `a.html`), the output path
sequence is NOT the input path sequence: the writer emits all textual
entries first, then all binary entries. -/
theorem C1_counterexample :
    (convert_epub sampleEntries).map (List.map outName)
        = some ["META-INF/container.xml", "book.opf", "a.html", "img.png"]
    ∧ sampleEntries.map RawEntry.name
        = ["META-INF/container.xml", "book.opf", "img.png", "a.html"]
    ∧ (convert_epub sampleEntries).map (List.map outName)
        ≠ some (sampleEntries.map RawEntry.name) := by
  refine ⟨by decide, by decide, by decide⟩

/-- C1 (amended): for every input archive on which the pipeline succeeds,
the sequence of output entry paths equals the TEXTUAL entry paths in input
order followed by the BINARY entry paths in input order (directory entries
are dropped); it equals the full input sequence only when no binary entry
precedes a textual one. -/
theorem C1_amended (entries : List RawEntry) (out : List OutEntry)
    (h : convert_epub entries = some out) :
    out.map outName
      = (readFiles entries).map FileData.file_name
        ++ (readBinaries entries).map BinaryFileData.file_name := by
  obtain ⟨st3, hr, rfl⟩ := convert_some entries out h
  rw [write_names]
  obtain ⟨h1, h2⟩ := runPasses_state _ _ _ hr
  rw [h1, h2]

/-- C1 witness: the amended order theorem applied to the concrete archive. -/
theorem C1_amended_witness :
    sampleOut.map outName
      = (readFiles sampleEntries).map FileData.file_name
        ++ (readBinaries sampleEntries).map BinaryFileData.file_name :=
  C1_amended sampleEntries sampleOut (by decide)

/-! ## Claim C7 — UTF-8 decode failure is non-fatal -/

/-- C7: an archive entry classified as textual whose bytes are not valid
UTF-8 is recorded with empty content, and the entries before and after it
are read exactly as they would otherwise be (the read continues; decode
failure never aborts). -/
theorem C7_decode_failure (pre post : List RawEntry) (e : RawEntry)
    (ht : textualName e.name = true) (hd : utf8Decode e.bytes = none) :
    readFiles (pre ++ e :: post)
      = readFiles pre ++ ⟨e.name, ""⟩ :: readFiles post
    ∧ readBinaries (pre ++ e :: post) = readBinaries pre ++ readBinaries post := by
  constructor
  · rw [readFiles, List.filterMap_append, List.filterMap_cons]
    simp only [ht, if_true, decodeOrEmpty, hd]
    rfl
  · rw [readBinaries, List.filterMap_append, List.filterMap_cons]
    rw [if_neg (by simp [ht])]
    rfl

/-- C7 witness: a textual `bad.xml` entry with the invalid byte `0xFF`. -/
theorem C7_witness :
    readFiles ([] ++ badEntry :: afterEntries)
      = readFiles [] ++ ⟨"bad.xml", ""⟩ :: readFiles afterEntries
    ∧ readBinaries ([] ++ badEntry :: afterEntries)
      = readBinaries [] ++ readBinaries afterEntries :=
  C7_decode_failure [] afterEntries badEntry (by decide) (by decide)

/-! ## Claim C9 — binary fidelity -/

/-- C9: for every input archive on which the pipeline succeeds, the binary
entries of the output are exactly the binary entries read from the input,
names and bytes (no fix pass and no overlay entry affects them: the fix
passes never touch `binary_files`, and the writer emits them verbatim,
ignoring the overlay). -/
theorem C9_binary_fidelity (entries : List RawEntry) (out : List OutEntry)
    (h : convert_epub entries = some out) :
    out.filterMap outBin
      = (readBinaries entries).map fun b => (b.file_name, b.file_data) := by
  obtain ⟨st3, hr, rfl⟩ := convert_some entries out h
  rw [write_bins, (runPasses_state _ _ _ hr).2]

/-- C9 witness: binary fidelity on the concrete archive. -/
theorem C9_witness :
    sampleOut.filterMap outBin
      = (readBinaries sampleEntries).map fun b => (b.file_name, b.file_data) :=
  C9_binary_fidelity sampleEntries sampleOut (by decide)

/-- C2, counterexample: `c.xml` contains the two distinct collected tokens,
yet after Phase B its final overlay content still contains the FIRST token
verbatim — every replacement is computed from the ORIGINAL content, so the
later overlay write discards the earlier substitution instead of refining
it. -/
theorem C2_counterexample :
    (collectPairs c2files).map Prod.fst
        = ["a.xhtml + # + p", "b.xhtml + # + q"]
    ∧ containsSubStr "see a.xhtml + # + p and b.xhtml + # + q end"
        "a.xhtml + # + p" = true
    ∧ containsSubStr "see a.xhtml + # + p and b.xhtml + # + q end"
        "b.xhtml + # + q" = true
    ∧ lookupA (fix_body_id_link c2st).altered_files "c.xml"
        = some "see a.xhtml + # + p and b.xhtml end"
    ∧ containsSubStr "see a.xhtml + # + p and b.xhtml end"
        "a.xhtml + # + p" = true := by
  refine ⟨by decide, by decide, by decide, by decide, by decide⟩

/-- C2 (amended): for every textual entry (unique paths) that contains at
least one collected token, the final overlay content for that entry's path
equals the ORIGINAL entry content with only the LAST matching token (in
collection order) replaced throughout; each replacement is applied to the
original content, not to the previous overlay write, so earlier matching
tokens remain unreplaced in the final overlay. -/
theorem C2_amended (st : EpubConverter) (f : FileData)
    (hnd : (st.files.map FileData.file_name).Nodup) (hf : f ∈ st.files)
    (p : String × String)
    (hp : ((collectPairs st.files).filter fun q =>
        containsSubStr f.file_data q.1).getLast? = some p) :
    lookupA (fix_body_id_link st).altered_files f.file_name
      = some (replaceStr f.file_data p.1 p.2) := by
  rw [fix_body_lookup st f hnd hf, bodyIns_lookup, hp]
  rfl

/-- C2 witness: one matching token; its replacement is the final overlay. -/
theorem C2_amended_witness :
    lookupA (fix_body_id_link (initState c2wfiles [])).altered_files "c.xml"
      = some (replaceStr "see a.xhtml + # + p here" "a.xhtml + # + p" "a.xhtml") :=
  C2_amended (initState c2wfiles []) ⟨"c.xml", "see a.xhtml + # + p here"⟩
    (by decide) (by decide) ("a.xhtml + # + p", "a.xhtml") (by decide)

/-- C3, counterexample: `a.html` does NOT begin with an XML declaration (the
declaration sits mid-content), yet the pass leaves the content unchanged and
emits no diagnostic — the regex test is an unanchored `is_match`, not a
begins-with test, refuting the claimed biconditional. -/
theorem C3_counterexample :
    specBeginsWithDecl (trimStart c3file.file_data) = false
    ∧ lookupA (fix_encoding c3st).altered_files "a.html" = some c3file.file_data
    ∧ (fix_encoding c3st).fixed_problems = [] := by
  refine ⟨by decide, by decide, by decide⟩

/-- C3 (amended): for every textual entry with path extension `html`/`xhtml`
(unique paths), the Encoding Normalizer writes the trimmed content unchanged
exactly when the declaration pattern matches SOMEWHERE in the trimmed
content (unanchored search); otherwise it writes the trimmed content with
the canonical declaration `<?xml version="1.0" encoding="utf-8"?>` and a
newline prepended and appends exactly one diagnostic naming the file. -/
theorem C3_amended (files : List FileData) (bins : List BinaryFileData)
    (f : FileData)
    (hnd : (files.map FileData.file_name).Nodup) (hf : f ∈ files)
    (hext : isFixExt f.file_name = true) :
    lookupA (fix_encoding (initState files bins)).altered_files f.file_name
      = some (normEnc f.file_data)
    ∧ (fix_encoding (initState files bins)).fixed_problems = encDiags files
    ∧ (containsDeclStr (trimStart f.file_data) = true →
        normEnc f.file_data = trimStart f.file_data
        ∧ (encDiags files).count (encMsg f.file_name) = 0)
    ∧ (containsDeclStr (trimStart f.file_data) = false →
        normEnc f.file_data = xmlDecl ++ "\n" ++ trimStart f.file_data
        ∧ (encDiags files).count (encMsg f.file_name) = 1) := by
  refine ⟨?_, ?_, ?_, ?_⟩
  · rw [fix_encoding_lookup (initState files bins) f hnd hf, if_pos hext]
  · rw [fix_encoding_problems]
    rfl
  · intro hc
    constructor
    · rw [normEnc]
      simp only [hc, if_true]
    · rw [encDiags_count files f hnd hf hext, if_pos hc]
  · intro hc
    constructor
    · rw [normEnc]
      simp only [hc, if_false, Bool.false_eq_true]
    · rw [encDiags_count files f hnd hf hext, if_neg (by simp [hc])]

/-- C3 witness: an `xhtml` file without a declaration gets the canonical
declaration prepended (to the whitespace-trimmed content) and exactly one
diagnostic. -/
theorem C3_amended_witness :
    lookupA (fix_encoding (initState [c3wfile] [])).altered_files "ch.xhtml"
      = some (normEnc c3wfile.file_data)
    ∧ normEnc c3wfile.file_data
        = xmlDecl ++ "\n" ++ trimStart c3wfile.file_data
    ∧ (encDiags [c3wfile]).count (encMsg "ch.xhtml") = 1 := by
  have h := C3_amended [c3wfile] [] c3wfile (by decide) (by decide) (by decide)
  exact ⟨h.1, (h.2.2.2 (by decide)).1, (h.2.2.2 (by decide)).2⟩

/-- C5, counterexample: the container has TWO rootfile elements; the first
has the wrong media-type, the second matches and points at an existing OPF
with a metadata element.  Under the claim (first rootfile WHOSE media-type
matches) the pass would proceed with `b.opf`; the code inspects only the
FIRST rootfile element and aborts fatally. -/
theorem C5_counterexample :
    specOpfPathOf c5files = some "b.opf"
    ∧ get_file_from_files c5files "b.opf" = some ⟨"b.opf", srcOpfEn⟩
    ∧ (metaInnerOf srcOpfEn).isSome = true
    ∧ fix_book_language (initState c5files []) = none := by
  refine ⟨by decide, by decide, by decide, by decide⟩

/-- C5 (amended): the Language Tag Repairer reads the OPF path from the
`full-path` attribute of the FIRST rootfile element of
`META-INF/container.xml`, provided that same element's `media-type` equals
`application/oebps-package+xml` (a later matching rootfile is never
considered); it completes normally exactly when that lookup succeeds, the
OPF entry exists and the OPF has a metadata element — otherwise it aborts
fatally. -/
theorem C5_amended (st : EpubConverter) :
    (∃ st', fix_book_language st = some st')
      ↔ ∃ p opf m, opfPathOf st.files = some p
          ∧ get_file_from_files st.files p = some opf
          ∧ metaInnerOf opf.file_data = some m := by
  rw [← fix_book_language_isSome_iff]
  constructor
  · rintro ⟨st', h⟩
    rw [h]
    rfl
  · intro h
    exact Option.isSome_iff_exists.1 h

/-- C5 witness: a well-formed container/OPF pair completes normally. -/
theorem C5_amended_witness :
    ∃ st', fix_book_language (initState c5wfiles []) = some st' :=
  (C5_amended (initState c5wfiles [])).2
    ⟨"book.opf", ⟨"book.opf", srcOpfEn⟩, "<dclanguage>en</dclanguage>",
      by decide, by decide, by decide⟩

/-- `fix_book_language` when the chain succeeds and a language element was
found: the `if` on the supported set, exposed. -/
theorem fix_book_language_some_lang (st : EpubConverter) (p : String)
    (opf : FileData) (m L : String)
    (hp : opfPathOf st.files = some p)
    (hf : get_file_from_files st.files p = some opf)
    (hm : metaInnerOf opf.file_data = some m)
    (hl : langOf opf.file_data = some L) :
    fix_book_language st
      = if supported_languages.contains L then some st
        else
          some { st with
            altered_files :=
              (opf.file_name,
                replaceStr opf.file_data
                  ("<dc:language>" ++ L ++ "</dc:language>")
                  ("<dc:language>" ++ preferred_language ++ "</dc:language>"))
              :: st.altered_files,
            fixed_problems := st.fixed_problems ++ [langMsg L] } := by
  unfold fix_book_language
  simp only [hp, hf, hm, hl]

/-! ## Claim C6 — fixing an unsupported language -/

/-- C6: when the OPF's first (placeholder-rewritten) language element has
inner text `L` outside the supported set, the pass overlays the OPF path
with the original OPF content in which the literal substring
`<dc:language>L</dc:language>` is replaced by `<dc:language>en</dc:language>`
and appends the diagnostic `Fixed language to be supported language from L`;
when `L` is supported it changes nothing and appends no diagnostic. -/
theorem C6_language_fix (st : EpubConverter) (p : String) (opf : FileData)
    (m L : String)
    (hp : opfPathOf st.files = some p)
    (hf : get_file_from_files st.files p = some opf)
    (hm : metaInnerOf opf.file_data = some m)
    (hl : langOf opf.file_data = some L) :
    (supported_languages.contains L = false →
      fix_book_language st = some { st with
        altered_files :=
          (opf.file_name,
            replaceStr opf.file_data
              ("<dc:language>" ++ L ++ "</dc:language>")
              ("<dc:language>" ++ preferred_language ++ "</dc:language>"))
          :: st.altered_files,
        fixed_problems := st.fixed_problems ++ [langMsg L] })
    ∧ (supported_languages.contains L = true → fix_book_language st = some st) := by
  rw [fix_book_language_some_lang st p opf m L hp hf hm hl]
  constructor
  · intro h
    rw [if_neg (by rw [h]; exact Bool.false_ne_true)]
  · intro h
    rw [if_pos h]

/-- C6 witness: `<dc:language>fr</dc:language>` is fixed to `en` with the
expected diagnostic. -/
theorem C6_witness :
    fix_book_language c6st = some { c6st with
      altered_files :=
        (c6opf.file_name,
          replaceStr c6opf.file_data
            ("<dc:language>" ++ "fr" ++ "</dc:language>")
            ("<dc:language>" ++ preferred_language ++ "</dc:language>"))
        :: c6st.altered_files,
      fixed_problems := c6st.fixed_problems ++ [langMsg "fr"] } :=
  (C6_language_fix c6st "book.opf" c6opf "<dclanguage>fr</dclanguage>" "fr"
    (by decide) (by decide) (by decide) (by decide)).1 (by decide)

/-! ## Claim C10 — unsupported language whose literal form does not occur -/

/-- C10: when the unsupported language `L` was read from an element whose
literal serialization differs from `<dc:language>L</dc:language>` (e.g. the
element carries attributes), the replacement finds no occurrence: the pass
still inserts an overlay entry for the OPF path whose content equals the
original OPF content unchanged, and still appends the `Fixed language`
diagnostic even though no correction was made. -/
theorem C10_attr_language (st : EpubConverter) (p : String) (opf : FileData)
    (m L : String)
    (hp : opfPathOf st.files = some p)
    (hf : get_file_from_files st.files p = some opf)
    (hm : metaInnerOf opf.file_data = some m)
    (hl : langOf opf.file_data = some L)
    (hns : supported_languages.contains L = false)
    (hno : containsSubStr opf.file_data
        ("<dc:language>" ++ L ++ "</dc:language>") = false) :
    fix_book_language st = some { st with
      altered_files := (opf.file_name, opf.file_data) :: st.altered_files,
      fixed_problems := st.fixed_problems ++ [langMsg L] } := by
  rw [fix_book_language_some_lang st p opf m L hp hf hm hl,
    if_neg (by rw [hns]; exact Bool.false_ne_true),
    replaceStr_noop opf.file_data ("<dc:language>" ++ L ++ "</dc:language>")
      ("<dc:language>" ++ preferred_language ++ "</dc:language>") hno]

/-- C10 witness: an attribute-carrying `dc:language` element — overlay gets
the unchanged OPF content, diagnostic still appended. -/
theorem C10_witness :
    fix_book_language c10st = some { c10st with
      altered_files := (c10opf.file_name, c10opf.file_data) :: c10st.altered_files,
      fixed_problems := c10st.fixed_problems ++ [langMsg "fr"] } :=
  C10_attr_language c10st "book.opf" c10opf
    "<dclanguage xml:lang=\"fr\">fr</dclanguage>" "fr"
    (by decide) (by decide) (by decide) (by decide) (by decide) (by decide)

/-- C4, counterexample: an `html` output entry whose declaration sits
mid-content is left unchanged by the pipeline (the unanchored regex finds
it), so the output does NOT begin with an XML declaration at all. -/
theorem C4_counterexample :
    isFixExt "a.html" = true
    ∧ (convert_epub c4entries).bind (fun out => outTextContent out "a.html")
        = some c4content
    ∧ specStartsWithUtf8Decl c4content = false := by
  refine ⟨by decide, by decide, by decide⟩

/-- C4 (amended): after conversion, an `html`/`xhtml` entry (unique paths)
whose content no later pass overwrote — no collected body-anchor token
occurs in it, and it is not the OPF path — carries `normEnc` of its
original content: when the original trimmed content contained no
declaration-pattern match the output begins with the canonical utf-8
declaration; otherwise the output is the trimmed original, which contains a
declaration-pattern match somewhere but need not begin with one, nor
specify utf-8. -/
theorem C4_amended (entries : List RawEntry) (out : List OutEntry) (f : FileData)
    (h : convert_epub entries = some out)
    (hnd : ((readFiles entries).map FileData.file_name).Nodup)
    (hf : f ∈ readFiles entries)
    (hext : isFixExt f.file_name = true)
    (hbody : ∀ p ∈ collectPairs (readFiles entries),
        containsSubStr f.file_data p.1 = false)
    (hlang : opfPathOf (readFiles entries) ≠ some f.file_name) :
    outTextContent out f.file_name = some (normEnc f.file_data)
    ∧ containsDeclStr (trimStart (normEnc f.file_data)) = true
    ∧ (containsDeclStr (trimStart f.file_data) = false →
        normEnc f.file_data = xmlDecl ++ "\n" ++ trimStart f.file_data) := by
  obtain ⟨st3, hr, rfl⟩ := convert_some entries out h
  obtain ⟨h3f, h3b⟩ := runPasses_state _ _ _ hr
  rw [runPasses] at hr
  have hst1files :
      (fix_encoding (initState (readFiles entries) (readBinaries entries))).files
        = readFiles entries := by
    rw [fix_encoding_files]; rfl
  have hst2files :
      (fix_body_id_link (fix_encoding
        (initState (readFiles entries) (readBinaries entries)))).files
        = readFiles entries := by
    rw [fix_body_files, hst1files]
  have hlk3 : lookupA st3.altered_files f.file_name
      = lookupA (fix_body_id_link (fix_encoding
          (initState (readFiles entries) (readBinaries entries)))).altered_files
          f.file_name :=
    (lang_preserved _ st3 hr).2.2 f.file_name (by rw [hst2files]; exact hlang)
  have hnd1 : ((fix_encoding (initState (readFiles entries)
      (readBinaries entries))).files.map FileData.file_name).Nodup := by
    rw [hst1files]; exact hnd
  have hf1 : f ∈ (fix_encoding (initState (readFiles entries)
      (readBinaries entries))).files := by
    rw [hst1files]; exact hf
  have hlk2 : lookupA (fix_body_id_link (fix_encoding
      (initState (readFiles entries) (readBinaries entries)))).altered_files
      f.file_name
      = lookupA (fix_encoding (initState (readFiles entries)
          (readBinaries entries))).altered_files f.file_name := by
    rw [fix_body_lookup _ f hnd1 hf1,
      bodyIns_empty _ f (by rw [hst1files]; exact hbody)]
  have hlk1 : lookupA (fix_encoding (initState (readFiles entries)
      (readBinaries entries))).altered_files f.file_name
      = some (normEnc f.file_data) := by
    rw [fix_encoding_lookup _ f (by exact hnd) (by exact hf), if_pos hext]
  have hnd3 : (st3.files.map FileData.file_name).Nodup := by
    rw [h3f]; exact hnd
  have hf3 : f ∈ st3.files := by rw [h3f]; exact hf
  refine ⟨?_, containsDeclStr_normEnc f.file_data, fun hc => ?_⟩
  · rw [outTextContent_write st3 f hnd3 hf3, hlk3, hlk2, hlk1]
    rfl
  · rw [normEnc]
    simp only [hc, if_false, Bool.false_eq_true]

/-- C4 witness: a declaration-free `xhtml` entry, untouched by the other
passes, leaves the pipeline with the canonical declaration prepended. -/
theorem C4_amended_witness :
    outTextContent c4wout "b.xhtml" = some (normEnc "<p>hi</p>")
    ∧ containsDeclStr (trimStart (normEnc "<p>hi</p>")) = true
    ∧ normEnc "<p>hi</p>" = xmlDecl ++ "\n" ++ trimStart "<p>hi</p>" := by
  have h := C4_amended c4wentries c4wout ⟨"b.xhtml", "<p>hi</p>"⟩
    (by decide) (by decide) (by decide) (by decide) (by decide) (by decide)
  exact ⟨h.1, h.2.1, h.2.2 (by decide)⟩

/-! ## Claim C8 — idempotence of the second run -/

theorem overlayContent_name (st : EpubConverter) (f : FileData) :
    (overlayContent st f).file_name = f.file_name := rfl

theorem overlayContent_data (st : EpubConverter) (f : FileData) :
    (overlayContent st f).file_data
      = (lookupA st.altered_files f.file_name).getD f.file_data := rfl

/-- Two states with the same binaries and the same per-entry final content
write the same archive. -/
theorem write_epub_congr (st st' : EpubConverter)
    (hfiles : st.files.map (overlayContent st) = st'.files.map (overlayContent st'))
    (hbins : st.binary_files = st'.binary_files) :
    write_epub st = write_epub st' := by
  have hview : ∀ (t : EpubConverter),
      t.files.map (fun f => OutEntry.text f.file_name
        ((lookupA t.altered_files f.file_name).getD f.file_data))
      = (t.files.map (overlayContent t)).map fun g =>
          OutEntry.text g.file_name g.file_data := by
    intro t
    rw [List.map_map]
    exact List.map_congr_left fun a _ => rfl
  rw [write_epub, write_epub, hbins, hview, hview, hfiles]

/-- C8, counterexample: the OPF's language element carries an attribute, so
the first run's textual replacement finds nothing, the output OPF is
unchanged, and the SECOND run's Language Tag Repairer appends the very same
diagnostic again — the second run is not diagnostic-free. -/
theorem C8_counterexample :
    (runPasses c8xFiles []).map EpubConverter.fixed_problems
        = some ["Fixed language to be supported language from fr"]
    ∧ (runPasses c8xFiles []).bind (fun st =>
        (runPasses (textFilesOf (write_epub st))
          (binFilesOf (write_epub st))).map EpubConverter.fixed_problems)
        = some ["Fixed language to be supported language from fr"] := by
  refine ⟨by decide, by decide⟩

/-- C8 (amended): feeding a successful run's output back through the
pipeline is byte-identical and diagnostic-free PROVIDED the Body-Anchor
pass is inert in both runs, the OPF path is not itself an `html`/`xhtml`
entry, and the second run's OPF parses to the supported language `en` with
a metadata element (as happens when the first run's replacement literally
applied, or the language was already supported); without these provisos the
Language pass can re-append its diagnostic (see the counterexample). -/
theorem C8_amended (files : List FileData) (bins : List BinaryFileData)
    (st3 : EpubConverter)
    (hnd : (files.map FileData.file_name).Nodup)
    (hb1 : fix_body_id_link (fix_encoding (initState files bins))
      = fix_encoding (initState files bins))
    (hrun : runPasses files bins = some st3)
    (opfPath : String)
    (hopf : opfPathOf files = some opfPath)
    (hopfext : isFixExt opfPath = false)
    (hb2 : fix_body_id_link (fix_encoding (initState (textFilesOf (write_epub st3))
        (binFilesOf (write_epub st3))))
      = fix_encoding (initState (textFilesOf (write_epub st3))
        (binFilesOf (write_epub st3))))
    (hopf2 : opfPathOf (textFilesOf (write_epub st3)) = some opfPath)
    (opf2 : FileData)
    (hfile2 : get_file_from_files (textFilesOf (write_epub st3)) opfPath = some opf2)
    (m2 : String)
    (hmeta2 : metaInnerOf opf2.file_data = some m2)
    (hlang2 : langOf opf2.file_data = some "en") :
    runPasses (textFilesOf (write_epub st3)) (binFilesOf (write_epub st3))
        = some (fix_encoding (initState (textFilesOf (write_epub st3))
            (binFilesOf (write_epub st3))))
      ∧ write_epub (fix_encoding (initState (textFilesOf (write_epub st3))
          (binFilesOf (write_epub st3)))) = write_epub st3
      ∧ (fix_encoding (initState (textFilesOf (write_epub st3))
          (binFilesOf (write_epub st3)))).fixed_problems = [] := by
  set F := textFilesOf (write_epub st3) with hFdef
  set B := binFilesOf (write_epub st3) with hBdef
  -- run-1 facts
  rw [runPasses, hb1] at hrun
  have hst1files : (fix_encoding (initState files bins)).files = files := by
    rw [fix_encoding_files]; rfl
  have h3 := lang_preserved _ _ hrun
  have h3files : st3.files = files := by rw [h3.1, hst1files]
  have h3bins : st3.binary_files = bins := by
    rw [h3.2.1, fix_encoding_binary]; rfl
  have hF : F = files.map (overlayContent st3) := by
    rw [hFdef, textFilesOf_write, h3files]
  have hB : B = bins := by rw [hBdef, binFilesOf_write, h3bins]
  have hlk : ∀ f ∈ files, isFixExt f.file_name = true →
      lookupA st3.altered_files f.file_name = some (normEnc f.file_data) := by
    intro f hf hext
    have hne : opfPathOf (fix_encoding (initState files bins)).files
        ≠ some f.file_name := by
      rw [hst1files, hopf]
      intro he
      injection he with he
      rw [← he] at hext
      rw [hopfext] at hext
      exact Bool.noConfusion hext
    rw [h3.2.2 f.file_name hne,
      fix_encoding_lookup (initState files bins) f (by exact hnd) (by exact hf),
      if_pos hext]
  have hoc_fix : ∀ f ∈ files, isFixExt f.file_name = true →
      (overlayContent st3 f).file_data = normEnc f.file_data := by
    intro f hf hext
    rw [overlayContent_data, hlk f hf hext]
    rfl
  have hFnames : F.map FileData.file_name = files.map FileData.file_name := by
    rw [hF, List.map_map]
    exact List.map_congr_left fun a _ => rfl
  have hFnd : (F.map FileData.file_name).Nodup := by
    rw [hFnames]
    exact hnd
  have hst1'files : (fix_encoding (initState F B)).files = F := by
    rw [fix_encoding_files]; rfl
  refine ⟨?_, ?_, ?_⟩
  · rw [runPasses, hb2,
      fix_book_language_some_lang _ opfPath opf2 m2 "en"
        (by rw [hst1'files]; exact hopf2)
        (by rw [hst1'files]; exact hfile2)
        hmeta2 hlang2,
      if_pos (by decide)]
  · have hstep : ∀ f ∈ files,
        overlayContent (fix_encoding (initState F B)) (overlayContent st3 f)
          = overlayContent st3 f := by
      intro f hf
      have hmem : overlayContent st3 f ∈ (initState F B).files := by
        show overlayContent st3 f ∈ F
        rw [hF]
        exact List.mem_map_of_mem _ hf
      have hnd0 : ((initState F B).files.map FileData.file_name).Nodup := by
        show (F.map FileData.file_name).Nodup
        exact hFnd
      have hlookup := fix_encoding_lookup (initState F B) (overlayContent st3 f)
        hnd0 hmem
      have hdata : (lookupA (fix_encoding (initState F B)).altered_files
          (overlayContent st3 f).file_name).getD (overlayContent st3 f).file_data
          = (overlayContent st3 f).file_data := by
        rw [hlookup, overlayContent_name]
        by_cases hext : isFixExt f.file_name = true
        · rw [if_pos hext, hoc_fix f hf hext, normEnc_idem]
          rfl
        · rw [if_neg (by simp [hext])]
          rfl
      calc overlayContent (fix_encoding (initState F B)) (overlayContent st3 f)
          = ⟨(overlayContent st3 f).file_name,
              (lookupA (fix_encoding (initState F B)).altered_files
                (overlayContent st3 f).file_name).getD
                (overlayContent st3 f).file_data⟩ := rfl
        _ = ⟨(overlayContent st3 f).file_name, (overlayContent st3 f).file_data⟩ := by
              rw [hdata]
        _ = overlayContent st3 f := rfl
    apply write_epub_congr
    · rw [hst1'files, h3files]
      calc F.map (overlayContent (fix_encoding (initState F B)))
          = (files.map (overlayContent st3)).map
              (overlayContent (fix_encoding (initState F B))) :=
            congrArg (List.map (overlayContent (fix_encoding (initState F B)))) hF
        _ = files.map ((overlayContent (fix_encoding (initState F B)))
              ∘ (overlayContent st3)) := by rw [List.map_map]
        _ = files.map (overlayContent st3) :=
            List.map_congr_left fun f hf => hstep f hf
    · rw [fix_encoding_binary]
      show B = st3.binary_files
      rw [hB, h3bins]
  · have hnil : encDiags F = [] := by
      rw [hF]
      apply List.filterMap_eq_nil_iff.2
      intro g hg
      rw [List.mem_map] at hg
      obtain ⟨f, hfmem, rfl⟩ := hg
      by_cases hext : isFixExt f.file_name = true
      · rw [if_neg]
        rintro ⟨hc1, hc2⟩
        rw [hoc_fix f hfmem hext, containsDeclStr_normEnc] at hc2
        exact Bool.noConfusion hc2
      · rw [if_neg]
        rintro ⟨hc1, hc2⟩
        rw [overlayContent_name] at hc1
        rw [hc1] at hext
        exact hext rfl
    rw [fix_encoding_problems]
    show ([] : List String) ++ encDiags F = []
    rw [hnil]
    rfl

/-- C8 witness: a concrete archive (declaration-free `xhtml`, French OPF)
whose first run fixes both; the second run is byte-identical and
diagnostic-free. -/
theorem C8_amended_witness :
    runPasses (textFilesOf (write_epub c8wSt3)) (binFilesOf (write_epub c8wSt3))
        = some (fix_encoding (initState (textFilesOf (write_epub c8wSt3))
            (binFilesOf (write_epub c8wSt3))))
      ∧ write_epub (fix_encoding (initState (textFilesOf (write_epub c8wSt3))
          (binFilesOf (write_epub c8wSt3)))) = write_epub c8wSt3
      ∧ (fix_encoding (initState (textFilesOf (write_epub c8wSt3))
          (binFilesOf (write_epub c8wSt3)))).fixed_problems = [] :=
  C8_amended c8wFiles [] c8wSt3 (by decide) (by decide) (by decide) "book.opf"
    (by decide) (by decide) (by decide) (by decide)
    ⟨"book.opf", srcOpfEn⟩ (by decide) "<dclanguage>en</dclanguage>"
    (by decide) (by decide)
